import Mathlib

/-!
Verification of the `pi_vss` shared cryptographic core (B_Pi_LA variant).

Shallow embedding of the repository's shared engine (`common` crate) and of the
`b_pi_la` dealer/party state machine, over an arbitrary field `F` standing for
the scalar field `ℤ_q` of the prime-order Ristretto group (instantiable as
`ZMod q` for any prime `q`; all index-injectivity side conditions hold there as
soon as `n < q`). Polynomials are coefficient lists, exactly as in
`common/src/polynomial.rs`; byte buffers are lists of naturals; blake3 is
abstracted to function parameters (`xof`, `hashCommit`, `hashChallenge`),
which is faithful because the code only ever compares digests for equality and
feeds them back into further hashing, and scalar encodings (`as_bytes`) are
injective fixed-width encodings.
-/

set_option linter.unusedSectionVars false
set_option linter.unnecessarySeqFocus false
set_option linter.unusedVariables false

namespace PiVss

open Finset

/-! ## Polynomial algebra (`common/src/polynomial.rs`) -/

section CoreDefs

variable {F : Type} [Field F] [DecidableEq F]

/-- The repeated idiom `let mut x_powers = vec![ONE, x]; for i in 2..len { push
x_powers[1] * x_powers[i-1] }`: the list `[1, x, x², …]` of length `max 2 len`
(the loop `2..len` is empty when `len ≤ 2`); entry `j` is `x^j`. -/
def xpowers (x : F) (len : ℕ) : List F :=
  (List.range (max 2 len)).map (fun j => x ^ j)

/-- Model of `Polynomial::evaluate`: zip the coefficients with the power list built from
`self.coefficients.len()` and sum (Rust's `zip` truncates to the shorter list). -/
def evaluate (coeffs : List F) (x : ℕ) : F :=
  (List.zipWith (· * ·) coeffs (xpowers ((x : ℕ) : F) coeffs.length)).sum

/-- Model of `Polynomial::evaluate_range`: evaluate at each integer in `from..=to`. -/
def evaluate_range (coeffs : List F) (a b : ℕ) : List F :=
  (List.range' a (b + 1 - a)).map (fun i => evaluate coeffs i)

/-- Model of `Polynomial::evaluate_many_range`: for each point, one shared power list built
from `polynomials[0].coefficients.len()`, zipped against every polynomial. -/
def evaluate_many_range (polys : List (List F)) (a b : ℕ) : List (List F) :=
  (List.range' a (b + 1 - a)).map (fun i =>
    polys.map (fun p =>
      (List.zipWith (· * ·) p (xpowers ((i : ℕ) : F) (polys.headD []).length)).sum))

/-- Model of `Polynomial::evaluate_range_precomp`: reuse a caller-provided power table,
consulting row `x_powers[i]` for evaluation point `i`. -/
def evaluate_range_precomp (coeffs : List F) (powers : List (List F)) (a b : ℕ) :
    List F :=
  (List.range' a (b + 1 - a)).map (fun i =>
    (List.zipWith (· * ·) coeffs (powers.getD i [])).sum)

/-- Model of `gen_powers` (`common/src/precompute.rs`): one row per `i ∈ 1..=n`; each row is
`vec![ONE, i]` grown by the loop `for i in 2..t`, i.e. `xpowers i t` (length `max 2 t`). -/
def gen_powers (n t : ℕ) : List (List F) :=
  (List.range' 1 n).map (fun i => xpowers ((i : ℕ) : F) t)

/-- Model of `Polynomial::compute_z`: in place, `self[i] += Σ_k f_polynomials[k][i] * d_vals[k]`
for every coefficient index `i` of `self`. -/
def compute_z (r : List F) (fs : List (List F)) (ds : List F) : List F :=
  List.zipWith (fun c i => c + (List.zipWith (fun f d => f.getD i 0 * d) fs ds).sum)
    r (List.range r.length)

/-- Model of `Polynomial::compute_r_eval`: `z_eval − Σ_k f_evals[k] * d_vals[k]`. -/
def compute_r_eval (z_eval : F) (f_evals ds : List F) : F :=
  z_eval - (List.zipWith (· * ·) f_evals ds).sum

/-- Model of `compute_d_powers` (`common/src/utils.rs`): push `d`, then `k−1` further
multiplications, giving `[d, d², …, d^k]` (length `max 1 k`: the first push is
unconditional). -/
def compute_d_powers (k : ℕ) (d : F) : List F :=
  (List.range (max 1 k)).map (fun i => d ^ (i + 1))

/-- Model of `compute_lagrange_basis` (`common/src/utils.rs`): product over the whole
qualified set, contributing `1` at `j = i` and `j * (j − i)⁻¹` elsewhere. -/
def compute_lagrange_basis (i : ℕ) (qualified_set : List ℕ) : F :=
  (qualified_set.map (fun j =>
    if i = j then (1 : F) else ((j : ℕ) : F) * (((j : ℕ) : F) - ((i : ℕ) : F))⁻¹)).prod

/-- Model of `compute_lagrange_bases`: map of `compute_lagrange_basis` over the set. -/
def compute_lagrange_bases (qualified_set : List ℕ) : List F :=
  qualified_set.map (fun i => compute_lagrange_basis i qualified_set)

/-- Model of `Polynomial::coef_at`: `Some(coefficients[index])` only when
`index < coefficients.len() - 1`. -/
def coef_at (coeffs : List F) (index : ℕ) : Option F :=
  if index < coeffs.length - 1 then some (coeffs.getD index 0) else none

end CoreDefs

/-! ## Error kinds (`common/src/error.rs`), as used by the modelled functions -/

inductive ErrorKind where
  | CountMismatch : ℕ → String → ℕ → String → ErrorKind
  | PointDecompressionError : String → ErrorKind
  | InvalidPararmeterSet : ℕ → ℤ → ℕ → ErrorKind
  | InvalidProof : String → ErrorKind
  | InsufficientShares : ℕ → ℕ → ErrorKind
  | UninitializedValue : String → ErrorKind
  deriving DecidableEq

/-! ## Secret-sharing primitives (`common/src/secret_sharing.rs`) -/

/-- Model of `select_qualified_set`. The rng-driven `shuffle` is a function parameter
standing for the permutation the rng produces. NOTE: the source guards on
`shares.len() > t`, not on `validated_shares.len() > t`, while the error payload
reports `validated_shares.len()`. -/
def select_qualified_set {α : Type} [Inhabited α] (shuffle : List ℕ → List ℕ)
    (t : ℕ) (shares : Option (List α)) (validated_shares : List ℕ) :
    Except ErrorKind (List (ℕ × α)) :=
  match shares with
  | some sh =>
      if sh.length > t then
        .ok (((shuffle validated_shares).take (t + 1)).map
          (fun x => (x + 1, sh.getD x default)))
      else
        .error (.InsufficientShares validated_shares.length t)
  | none => .error (.UninitializedValue "party.\x7bshares || decrypted_shares\x7d")

/-! ## Transcript buffer hygiene (`common/src/utils.rs`) -/

/-- blake3 `Hasher` state, abstracted to the byte stream absorbed since the last
reset; `xof` below abstracts `finalize_xof().fill` on that stream. -/
structure HasherSt where
  acc : List ℕ

def hUpdate (h : HasherSt) (bytes : List ℕ) : HasherSt :=
  ⟨h.acc ++ bytes⟩

def hReset : HasherSt :=
  ⟨[]⟩

/-- Model of `buf.zeroize()`: overwrite every byte of the buffer with `0`. -/
def zeroize (buf : List ℕ) : List ℕ :=
  buf.map (fun _ => 0)

/-- Model of `compute_d_from_hash_commitments`, state-passing: absorb each 64-byte
commitment, fill `buf` from the XOF, reset the hasher, reduce `buf` to the
scalar `d`, zeroize `buf`, return `(d, hasher', buf')`. -/
def compute_d_from_hash_commitments {F : Type} [Field F]
    (xof : List ℕ → List ℕ) (from_bytes_mod_order_wide : List ℕ → F)
    (hasher : HasherSt) (_buf : List ℕ) (commitments : List (List ℕ)) :
    F × HasherSt × List ℕ :=
  let h1 := commitments.foldl hUpdate hasher
  let buf1 := xof h1.acc
  let h2 := hReset
  let d := from_bytes_mod_order_wide buf1
  let buf2 := zeroize buf1
  (d, h2, buf2)

/-- Model of `compute_d_from_point_commitments`: identical, absorbing each commitment's
compressed 32-byte encoding (`as_bytes`). -/
def compute_d_from_point_commitments {F Q : Type} [Field F]
    (xof : List ℕ → List ℕ) (from_bytes_mod_order_wide : List ℕ → F)
    (as_bytes : Q → List ℕ)
    (hasher : HasherSt) (_buf : List ℕ) (commitments : List Q) :
    F × HasherSt × List ℕ :=
  let h1 := commitments.foldl (fun h c => hUpdate h (as_bytes c)) hasher
  let buf1 := xof h1.acc
  let h2 := hReset
  let d := from_bytes_mod_order_wide buf1
  let buf2 := zeroize buf1
  (d, h2, buf2)

/-! ## Point decompression (`common/src/utils.rs`) -/

section PointDefs

variable {P Q : Type}

def decompress_ristretto_point (decompress : Q → Option P) (reprC : Q → String)
    (c : Q) : Except ErrorKind P :=
  match decompress c with
  | some p => .ok p
  | none => .error (.PointDecompressionError (reprC c))

def batch_decompress_ristretto_points (decompress : Q → Option P)
    (reprC : Q → String) : List Q → Except ErrorKind (List P)
  | [] => .ok []
  | c :: rest =>
      match decompress_ristretto_point decompress reprC c with
      | .ok p =>
          match batch_decompress_ristretto_points decompress reprC rest with
          | .ok ps => .ok (p :: ps)
          | .error e => .error e
      | .error e => .error e

end PointDefs

/-! ## `b_pi_la` dealer and party (`b_pi_la/src/dealer.rs`, `b_pi_la/src/party.rs`) -/

section BPiLADefs

variable {F : Type} [Field F] [DecidableEq F]
variable {P Q D : Type}

structure Dealer (F P : Type) where
  t : ℕ
  public_keys : List P
  secrets : Option (List F)

/-- Model of `Dealer::new`: `CountMismatch` when `|public_keys| ≠ n`, else the batch
decompression's outcome. `t` is stored without any check against `n`. -/
def Dealer.new (decompress : Q → Option P) (reprC : Q → String)
    (n t : ℕ) (public_keys : List Q) : Except ErrorKind (Dealer F P) :=
  if public_keys.length ≠ n then
    .error (.CountMismatch n "parties" public_keys.length "public keys")
  else
    match batch_decompress_ristretto_points decompress reprC public_keys with
    | .ok pks => .ok { t := t, public_keys := pks, secrets := none }
    | .error x => .error x

/-- Model of `Dealer::deal_secrets_v2` (via `generate_shares` and `generate_proof`), with
the rng outcomes — the sampled share polynomials `fcoefs` (constant terms set to
the secrets) and blinding polynomial `rcoefs` — passed explicitly, and blake3
abstracted: `hashCommit` is the per-party commitment digest over the absorbed
scalar sequence, `hashChallenge` the challenge derivation
(`compute_d_powers_from_commitments`) over the commitment list. -/
def deal_secrets_v2 (hashCommit : List F → D) (hashChallenge : List D → F)
    (n : ℕ) (secrets : List F) (fcoefs : List (List F)) (rcoefs : List F) :
    List (List F) × (List D × List F) :=
  let k := secrets.length
  let f_evals := evaluate_many_range fcoefs 1 n
  let r_evals := evaluate_range rcoefs 1 n
  let c_buf := List.zipWith (fun fi ri => hashCommit (fi ++ [ri])) f_evals r_evals
  let d_vals := compute_d_powers k (hashChallenge c_buf)
  let z := compute_z rcoefs fcoefs d_vals
  (f_evals, (c_buf, z))

structure Party (F P Q D : Type) where
  private_key : F
  public_key : Q × P
  index : ℕ
  n : ℕ
  t : ℕ
  public_keys : Option (List P)
  dealer_proof : Option (List D × List F)
  validated_shares : List ℕ
  share : Option (List F)
  shares : Option (List (List F))
  qualified_set : Option (List (ℕ × List F))

/-- Single-precision rounding of a natural number, round-to-nearest, ties to
even, 24-bit significand: the value of `m as f32` (an integer for every
`usize`-sized `m`, since overflow to infinity needs `m ≥ 2^128`). -/
def f32ofNat (m : ℕ) : ℕ :=
  if m < 2 ^ 24 then m
  else
    let e := Nat.log2 m
    let ulp := 2 ^ (e - 23)
    let q := m / ulp
    let r := m % ulp
    if 2 * r < ulp then q * ulp
    else if ulp < 2 * r then (q + 1) * ulp
    else (if q % 2 = 0 then q else q + 1) * ulp

/-- Model of `Party::new`. The rng-sampled private key is the parameter `sk`. The guard is
`index <= n && t < n && t as f32 == ((n - 1) as f32 / 2.0).floor()`; the float
comparison is modelled exactly: both sides are f32 values of naturals, and
`floor((n-1) as f32 / 2.0)` equals `f32ofNat (n-1) / 2` in ℕ (halving an f32 is
exact, and the floor of a 24-bit-significand value is exactly representable).
There is no `index ≥ 1` check. -/
def Party.new (smulP : F → P → P) (compressP : P → Q)
    (Gp : P) (sk : F) (n t index : ℕ) : Except ErrorKind (Party F P Q D) :=
  if index ≤ n ∧ t < n ∧ f32ofNat t = f32ofNat (n - 1) / 2 then
    .ok { private_key := sk
          public_key := (compressP (smulP sk Gp), smulP sk Gp)
          index := index, n := n, t := t
          dealer_proof := none, share := none, public_keys := none
          validated_shares := [], shares := none, qualified_set := none }
  else
    .error (.InvalidPararmeterSet n (t : ℤ) index)

def Party.ingest_share (p : Party F P Q D) (share : List F) : Party F P Q D :=
  { p with share := some share }

def Party.ingest_shares (p : Party F P Q D) (shares : List (List F)) :
    Except ErrorKind (Party F P Q D) :=
  if shares.length = p.n then .ok { p with shares := some shares }
  else .error (.CountMismatch p.n "parties" shares.length "ingestable shares")

def Party.ingest_dealer_proof (p : Party F P Q D) (proof : List D × List F) :
    Except ErrorKind (Party F P Q D) :=
  if proof.2.length ≠ p.t + 1 then
    .error (.InvalidProof "z len mismatch")
  else if proof.1.length ≠ p.n then
    .error (.InvalidProof "c_vals len mismatch")
  else
    .ok { p with dealer_proof := some proof }

/-- Model of `Party::verify_share`: recompute the challenge powers from the ingested
commitments, derive `r(index)` from `z(index)` and the own share, re-hash and
compare with commitment `index − 1`. -/
def Party.verify_share [Inhabited D] [DecidableEq D]
    (hashCommit : List F → D) (hashChallenge : List D → F)
    (p : Party F P Q D) : Except ErrorKind Bool :=
  match p.dealer_proof with
  | some (cvals, z) =>
      match p.share with
      | some share =>
          let k := share.length
          let d_vals := compute_d_powers k (hashChallenge cvals)
          let z_eval := evaluate z p.index
          let r_val := compute_r_eval z_eval share d_vals
          .ok (decide (cvals.getD (p.index - 1) default
            = hashCommit (share ++ [r_val])))
      | none => .error (.UninitializedValue "party.share")
  | none => .error (.UninitializedValue "party.dealer_proof")

/-- Model of `Party::verify_shares`: run the same check for all `n` ingested shares,
record the passing indices in `validated_shares`, and return
`|validated_shares| > t`. -/
def Party.verify_shares [Inhabited D] [DecidableEq D]
    (hashCommit : List F → D) (hashChallenge : List D → F)
    (p : Party F P Q D) : Except ErrorKind (Party F P Q D × Bool) :=
  match p.dealer_proof with
  | some (cvals, z) =>
      match p.shares with
      | some shs =>
          let k := (shs.headD []).length
          let d_vals := compute_d_powers k (hashChallenge cvals)
          let z_evals := evaluate_range z 1 p.n
          let validated := (List.range p.n).filter (fun i =>
            let r_val := compute_r_eval (z_evals.getD i 0) (shs.getD i []) d_vals
            decide (cvals.getD i default = hashCommit (shs.getD i [] ++ [r_val])))
          .ok ({ p with validated_shares := validated },
            decide (validated.length > p.t))
      | none => .error (.UninitializedValue "party.share")
  | none => .error (.UninitializedValue "party.dealer_proof")

/-- Model of `Party::reconstruct_secrets`: scale each qualified share by its Lagrange
basis and sum componentwise. -/
def Party.reconstruct_secrets (p : Party F P Q D) (lambdas : List F) :
    Except ErrorKind (List F) :=
  match p.qualified_set with
  | some qs =>
      let scaled := List.zipWith
        (fun (pr : ℕ × List F) l => pr.2.map (fun s => l * s)) qs lambdas
      .ok ((List.range (scaled.headD []).length).map
        (fun k => (scaled.map (fun sh => sh.getD k 0)).sum))
  | none => .error (.UninitializedValue "party.qualified_set")

end BPiLADefs

instance fact_prime_11 : Fact (Nat.Prime 11) :=
  ⟨by norm_num⟩

/-! ## Generic list lemmas -/

theorem getD_zipWith {α β γ : Type} (f : α → β → γ) (l1 : List α) (l2 : List β)
    (i : ℕ) (d1 : α) (d2 : β) (d3 : γ) (h1 : i < l1.length) (h2 : i < l2.length) :
    (List.zipWith f l1 l2).getD i d3 = f (l1.getD i d1) (l2.getD i d2) := by
  rw [List.getD_eq_getElem _ _ (by simp [List.length_zipWith]; omega)]
  rw [List.getElem_zipWith]
  rw [List.getD_eq_getElem _ _ h1, List.getD_eq_getElem _ _ h2]

theorem getD_range' (s n i : ℕ) (d : ℕ) (h : i < n) :
    (List.range' s n).getD i d = s + i := by
  rw [List.getD_eq_getElem _ _ (by simpa using h), List.getElem_range']
  omega

theorem getD_range (m i d : ℕ) (h : i < m) : (List.range m).getD i d = i := by
  rw [List.getD_eq_getElem _ _ (by simpa using h), List.getElem_range]

theorem getD_map' {α β : Type} (f : α → β) (l : List α) (i : ℕ) (d1 : α) (d2 : β)
    (h : i < l.length) : (l.map f).getD i d2 = f (l.getD i d1) := by
  rw [List.getD_eq_getElem _ _ (by simpa using h), List.getElem_map,
    List.getD_eq_getElem _ _ h]

theorem headD_eq_getD {α : Type} (l : List α) (d : α) : l.headD d = l.getD 0 d := by
  cases l <;> rfl

theorem list_eq_by_getD {α : Type} (d : α) (l1 l2 : List α) (hlen : l1.length = l2.length)
    (h : ∀ i, i < l1.length → l1.getD i d = l2.getD i d) : l1 = l2 := by
  refine List.ext_getElem hlen fun i h1 h2 => ?_
  have := h i h1
  rwa [List.getD_eq_getElem _ _ h1, List.getD_eq_getElem _ _ h2] at this

/-- Sum of a `zipWith` as a `Finset.range` sum over the shorter length. -/
theorem sum_zipWith {α β M : Type} [AddCommMonoid M] (f : α → β → M) (d1 : α) (d2 : β) :
    ∀ (l1 : List α) (l2 : List β),
      (List.zipWith f l1 l2).sum
        = ∑ i ∈ Finset.range (min l1.length l2.length), f (l1.getD i d1) (l2.getD i d2)
  | [], _ => by simp
  | _ :: _, [] => by simp
  | a :: l1, b :: l2 => by
    rw [List.zipWith_cons_cons, List.sum_cons, sum_zipWith f d1 d2 l1 l2]
    rw [List.length_cons, List.length_cons, Nat.succ_min_succ, Finset.sum_range_succ']
    simp [add_comm]

/-! ## Evaluation lemmas -/

section CoreProofs

variable {F : Type} [Field F] [DecidableEq F]

theorem xpowers_getD (x : F) (len i : ℕ) (h : i < max 2 len) :
    (xpowers x len).getD i 0 = x ^ i := by
  unfold xpowers
  rw [getD_map' _ _ i 0 _ (by simpa using h), getD_range _ _ _ h]

theorem xpowers_length (x : F) (len : ℕ) : (xpowers x len).length = max 2 len := by
  simp [xpowers]

theorem evaluate_eq_sum (coeffs : List F) (x : ℕ) :
    evaluate coeffs x
      = ∑ i ∈ Finset.range coeffs.length, coeffs.getD i 0 * ((x : ℕ) : F) ^ i := by
  unfold evaluate
  rw [sum_zipWith _ 0 0]
  have hmin : min coeffs.length (xpowers ((x : ℕ) : F) coeffs.length).length
      = coeffs.length := by
    rw [xpowers_length]; omega
  rw [hmin]
  refine Finset.sum_congr rfl fun i hi => ?_
  rw [xpowers_getD _ _ _ (by have := Finset.mem_range.mp hi; omega)]

theorem evaluate_at_zero (f : List F) : evaluate f 0 = f.getD 0 0 := by
  rw [evaluate_eq_sum, Nat.cast_zero]
  rcases f with _ | ⟨a, tl⟩
  · simp
  · rw [Finset.sum_eq_single 0]
    · simp
    · intro b _ hbne
      rw [zero_pow hbne, mul_zero]
    · intro h
      exact absurd (Finset.mem_range.mpr (by simp)) h

theorem length_compute_z (r : List F) (fs : List (List F)) (ds : List F) :
    (compute_z r fs ds).length = r.length := by
  simp [compute_z]

theorem getD_compute_z (r : List F) (fs : List (List F)) (ds : List F) (i : ℕ)
    (h : i < r.length) :
    (compute_z r fs ds).getD i 0
      = r.getD i 0 + (List.zipWith (fun f d => f.getD i 0 * d) fs ds).sum := by
  unfold compute_z
  rw [getD_zipWith _ _ _ i 0 0 0 h (by simpa using h), getD_range _ _ _ h]

/-- Core algebra of `compute_z`: evaluating the updated coefficient vector at any
point gives the old value plus `Σ_j d_j · f_j(x)`. -/
theorem evaluate_compute_z (r : List F) (fs : List (List F)) (ds : List F) (x : ℕ)
    (hlen : ∀ f ∈ fs, f.length = r.length) (hk : fs.length = ds.length) :
    evaluate (compute_z r fs ds) x
      = evaluate r x + (List.zipWith (fun d f => d * evaluate f x) ds fs).sum := by
  have hgd : ∀ j, j < fs.length → (fs.getD j []).length = r.length := by
    intro j hj
    refine hlen _ ?_
    rw [List.getD_eq_getElem _ _ hj]
    exact List.getElem_mem _
  have hmin1 : min fs.length ds.length = fs.length := by omega
  have hmin2 : min ds.length fs.length = fs.length := by omega
  rw [evaluate_eq_sum, evaluate_eq_sum, length_compute_z]
  have step1 : ∑ i ∈ Finset.range r.length,
        (compute_z r fs ds).getD i 0 * ((x : ℕ) : F) ^ i
      = ∑ i ∈ Finset.range r.length,
          (r.getD i 0 * ((x : ℕ) : F) ^ i
            + ∑ j ∈ Finset.range fs.length,
                (fs.getD j []).getD i 0 * ds.getD j 0 * ((x : ℕ) : F) ^ i) := by
    refine Finset.sum_congr rfl fun i hi => ?_
    rw [getD_compute_z _ _ _ _ (Finset.mem_range.mp hi)]
    rw [sum_zipWith _ [] 0, hmin1, add_mul, Finset.sum_mul]
  rw [step1, Finset.sum_add_distrib]
  congr 1
  rw [Finset.sum_comm, sum_zipWith _ 0 [], hmin2]
  refine Finset.sum_congr rfl fun j hj => ?_
  rw [evaluate_eq_sum, hgd j (Finset.mem_range.mp hj), Finset.mul_sum]
  refine Finset.sum_congr rfl fun i _ => ?_
  ring

/-- Dual direction: `compute_r_eval` applied to the evaluations recovers `r(x)`. -/
theorem compute_r_eval_recovers (r : List F) (fs : List (List F)) (ds : List F) (x : ℕ)
    (hlen : ∀ f ∈ fs, f.length = r.length) (hk : fs.length = ds.length) :
    compute_r_eval (evaluate (compute_z r fs ds) x)
        (fs.map (fun f => evaluate f x)) ds
      = evaluate r x := by
  unfold compute_r_eval
  rw [evaluate_compute_z r fs ds x hlen hk]
  have hswap : (List.zipWith (· * ·) (fs.map (fun f => evaluate f x)) ds)
      = List.zipWith (fun d f => d * evaluate f x) ds fs := by
    rw [List.zipWith_map_left, ← List.zipWith_comm]
    refine congrFun (congrFun (congrArg _ ?_) _) _
    funext f d
    ring
  rw [hswap]
  ring

/-! ## Lagrange interpolation core -/

/-- From non-vanishing of the casts of `1..n`, the cast `ℕ → F` is injective on
`0..n` (in `ZMod q` with `n < q` this is automatic). -/
theorem cast_inj_of_cast_ne_zero (n : ℕ)
    (hcast : ∀ m : ℕ, 0 < m → m ≤ n → ((m : ℕ) : F) ≠ 0) :
    ∀ i j : ℕ, i ≤ n → j ≤ n → ((i : ℕ) : F) = ((j : ℕ) : F) → i = j := by
  intro i j hi hj hij
  by_contra hne
  rcases Nat.lt_or_ge i j with h | h
  · refine hcast (j - i) (by omega) (by omega) ?_
    rw [Nat.cast_sub h.le, hij, sub_self]
  · have h' : j < i := by omega
    refine hcast (i - j) (by omega) (by omega) ?_
    rw [Nat.cast_sub h'.le, hij, sub_self]

theorem compute_lagrange_basis_eq_finset (S : List ℕ) (hnd : S.Nodup) (i : ℕ)
    (hi : i ∈ S) :
    compute_lagrange_basis (F := F) i S
      = ∏ j ∈ S.toFinset.erase i, (((j : ℕ) : F) * (((j : ℕ) : F) - ((i : ℕ) : F))⁻¹) := by
  unfold compute_lagrange_basis
  rw [← List.prod_toFinset _ hnd,
    ← Finset.mul_prod_erase _ _ (List.mem_toFinset.mpr hi), if_pos rfl, one_mul]
  refine Finset.prod_congr rfl fun j hj => ?_
  rw [if_neg fun h => (Finset.mem_erase.mp hj).1 h.symm]

theorem lagrange_basis_eval_zero (s : Finset ℕ) (v : ℕ → F) (i : ℕ) :
    (Lagrange.basis s v i).eval 0
      = ∏ j ∈ s.erase i, (v j * (v j - v i)⁻¹) := by
  rw [Lagrange.basis, Polynomial.eval_prod]
  refine Finset.prod_congr rfl fun j hj => ?_
  simp only [Lagrange.basisDivisor, Polynomial.eval_mul, Polynomial.eval_C,
    Polynomial.eval_sub, Polynomial.eval_X]
  have h1 : v j - v i = -(v i - v j) := by ring
  rw [h1, inv_neg]
  ring

theorem evaluate_eq_polyEval (f : List F) (x : ℕ) :
    evaluate f x
      = Polynomial.eval ((x : ℕ) : F)
          (∑ j ∈ Finset.range f.length, Polynomial.C (f.getD j 0) * Polynomial.X ^ j) := by
  rw [evaluate_eq_sum, Polynomial.eval_finset_sum]
  refine Finset.sum_congr rfl fun j _ => ?_
  rw [Polynomial.eval_mul, Polynomial.eval_C, Polynomial.eval_pow, Polynomial.eval_X]

theorem degree_listPoly_lt (f : List F) (m : ℕ) (hm : f.length ≤ m) :
    (∑ j ∈ Finset.range f.length, Polynomial.C (f.getD j 0) * Polynomial.X ^ j).degree
      < (m : WithBot ℕ) := by
  refine lt_of_le_of_lt (Polynomial.degree_sum_le _ _) ?_
  rw [Finset.sup_lt_iff (by exact WithBot.bot_lt_coe m)]
  intro j hj
  refine lt_of_le_of_lt (Polynomial.degree_C_mul_X_pow_le _ _) ?_
  have : j < m := by have := Finset.mem_range.mp hj; omega
  exact_mod_cast this

theorem zip_bases_evals (S : List ℕ) (g : ℕ → F) :
    List.zipWith (· * ·) (compute_lagrange_bases S) (S.map g)
      = S.map (fun i => compute_lagrange_basis i S * g i) := by
  unfold compute_lagrange_bases
  rw [List.zipWith_map_left, List.zipWith_map_right, List.zipWith_same]

/-- Lagrange idempotence over the list-based `compute_lagrange_bases`: for a
duplicate-free set `S ⊆ [1..n]` of indices whose casts do not collide, and a
coefficient vector of length at most `|S|`, the `λ`-weighted sum of evaluations
recovers the evaluation at `0`. -/
theorem lagrange_sum_eval_zero (n : ℕ) (S : List ℕ) (f : List F)
    (hnd : S.Nodup) (hrange : ∀ i ∈ S, 1 ≤ i ∧ i ≤ n)
    (hcast : ∀ m : ℕ, 0 < m → m ≤ n → ((m : ℕ) : F) ≠ 0)
    (hflen : f.length ≤ S.length) :
    (List.zipWith (· * ·) (compute_lagrange_bases S)
        (S.map (fun i => evaluate f i))).sum
      = evaluate f 0 := by
  classical
  have hinjn := cast_inj_of_cast_ne_zero (F := F) n hcast
  have hcard : S.toFinset.card = S.length := List.toFinset_card_of_nodup hnd
  have hinj : Set.InjOn (fun m : ℕ => ((m : ℕ) : F)) S.toFinset := by
    intro a ha b hb hab
    exact hinjn a b (hrange a (List.mem_toFinset.mp ha)).2
      (hrange b (List.mem_toFinset.mp hb)).2 hab
  have hdeg : (∑ j ∈ Finset.range f.length,
      Polynomial.C (f.getD j 0) * Polynomial.X ^ j).degree
        < (S.toFinset.card : WithBot ℕ) := by
    rw [hcard]
    exact degree_listPoly_lt f _ hflen
  have hinterp := Lagrange.eq_interpolate
    (f := ∑ j ∈ Finset.range f.length, Polynomial.C (f.getD j 0) * Polynomial.X ^ j)
    hinj (by exact_mod_cast hdeg)
  have h0 : (∑ j ∈ Finset.range f.length,
        Polynomial.C (f.getD j 0) * Polynomial.X ^ j).eval 0
      = ∑ i ∈ S.toFinset,
          (∑ j ∈ Finset.range f.length,
            Polynomial.C (f.getD j 0) * Polynomial.X ^ j).eval ((i : ℕ) : F)
          * (Lagrange.basis S.toFinset (fun m : ℕ => ((m : ℕ) : F)) i).eval 0 := by
    conv_lhs => rw [hinterp]
    rw [Lagrange.interpolate_apply, Polynomial.eval_finset_sum]
    refine Finset.sum_congr rfl fun i _ => ?_
    rw [Polynomial.eval_mul, Polynomial.eval_C]
  rw [zip_bases_evals, ← List.sum_toFinset _ hnd]
  have hterm : ∀ i ∈ S.toFinset,
      compute_lagrange_basis (F := F) i S * evaluate f i
        = (∑ j ∈ Finset.range f.length,
            Polynomial.C (f.getD j 0) * Polynomial.X ^ j).eval ((i : ℕ) : F)
          * (Lagrange.basis S.toFinset (fun m : ℕ => ((m : ℕ) : F)) i).eval 0 := by
    intro i hi
    rw [compute_lagrange_basis_eq_finset S hnd i (List.mem_toFinset.mp hi),
      lagrange_basis_eval_zero, evaluate_eq_polyEval]
    ring
  rw [Finset.sum_congr rfl hterm, ← h0, evaluate_eq_polyEval]
  norm_num

end CoreProofs

/-! ## Claim theorems -/

/-- C5: after `z.compute_z(f_polys, d_vals)` with all `f_polys` of the same
length as `z` and `|f_polys| = |d_vals|`, for every evaluation point `x`:
`z(x) = r(x) + Σ_j d_vals[j] · f_polys[j](x)` where `r` is the pre-call
coefficient vector; dually `compute_r_eval(z(x), [f_j(x)], d_vals) = r(x)`. -/
theorem compute_z_fused_identity {F : Type} [Field F] [DecidableEq F]
    (r : List F) (fs : List (List F)) (ds : List F)
    (hlen : ∀ f ∈ fs, f.length = r.length) (hk : fs.length = ds.length) (x : ℕ) :
    evaluate (compute_z r fs ds) x
      = evaluate r x + (List.zipWith (fun d f => d * evaluate f x) ds fs).sum
    ∧ compute_r_eval (evaluate (compute_z r fs ds) x)
        (fs.map (fun f => evaluate f x)) ds
      = evaluate r x :=
  ⟨evaluate_compute_z r fs ds x hlen hk, compute_r_eval_recovers r fs ds x hlen hk⟩

theorem compute_z_fused_identity_witness :
    evaluate (compute_z ([7, 1] : List (ZMod 11)) [[5, 3]] [2]) 5
      = evaluate ([7, 1] : List (ZMod 11)) 5
        + (List.zipWith (fun d f => d * evaluate f 5) ([2] : List (ZMod 11)) [[5, 3]]).sum
    ∧ compute_r_eval (evaluate (compute_z ([7, 1] : List (ZMod 11)) [[5, 3]] [2]) 5)
        (([[5, 3]] : List (List (ZMod 11))).map (fun f => evaluate f 5)) [2]
      = evaluate ([7, 1] : List (ZMod 11)) 5 :=
  compute_z_fused_identity [7, 1] [[5, 3]] [2] (by decide) (by decide) 5

/-- C6: for `t ≥ 0`, a set `S` of `t+1` pairwise-distinct indices from `[1..n]`
whose casts into the field do not collide (in `ℤ_q` this is exactly `n < q`),
and a polynomial `f` of degree `≤ t`, the scalars from
`compute_lagrange_bases S` satisfy `Σ_{i∈S} λ_i · f(i) = f(0)`. -/
theorem lagrange_idempotence {F : Type} [Field F] [DecidableEq F]
    (n t : ℕ) (S : List ℕ) (f : List F)
    (hnd : S.Nodup) (hlenS : S.length = t + 1)
    (hrange : ∀ i ∈ S, 1 ≤ i ∧ i ≤ n)
    (hcast : ∀ m : ℕ, 0 < m → m ≤ n → ((m : ℕ) : F) ≠ 0)
    (hdeg : f.length ≤ t + 1) :
    (List.zipWith (· * ·) (compute_lagrange_bases S)
        (S.map (fun i => evaluate f i))).sum
      = evaluate f 0 :=
  lagrange_sum_eval_zero n S f hnd hrange hcast (by omega)

theorem lagrange_idempotence_witness :
    (List.zipWith (· * ·) (compute_lagrange_bases [1, 2])
        (([1, 2] : List ℕ).map (fun i => evaluate ([5, 3] : List (ZMod 11)) i))).sum
      = evaluate ([5, 3] : List (ZMod 11)) 0 :=
  lagrange_idempotence 3 1 [1, 2] [5, 3] (by decide) (by decide)
    (by decide)
    (by intro m h1 h2; interval_cases m <;> decide)
    (by decide)

/-- C9 (implicit): for a non-empty coefficient vector of length `L`,
`coef_at index` is `Some(coefficients[index])` exactly when `index < L - 1`;
in particular `coef_at (L-1)` — the leading coefficient's position, a valid
index — returns `None`. -/
theorem coef_at_boundary {F : Type} [Field F] [DecidableEq F]
    (coeffs : List F) (h : coeffs ≠ []) :
    (∀ index : ℕ, ∀ v : F,
        coef_at coeffs index = some v
          ↔ index < coeffs.length - 1 ∧ v = coeffs.getD index 0)
    ∧ coef_at coeffs (coeffs.length - 1) = none
    ∧ coeffs.length - 1 < coeffs.length := by
  have hpos : 0 < coeffs.length := List.length_pos.mpr h
  refine ⟨fun index v => ?_, ?_, by omega⟩
  · unfold coef_at
    by_cases hc : index < coeffs.length - 1
    · simp only [if_pos hc, Option.some_inj]
      exact ⟨fun hv => ⟨hc, hv.symm⟩, fun hv => hv.2.symm⟩
    · simp [hc]
  · unfold coef_at
    simp

theorem coef_at_boundary_witness :
    coef_at ([1, 2, 3] : List (ZMod 11)) 2 = none
    ∧ coef_at ([1, 2, 3] : List (ZMod 11)) 1 = some 2 := by
  have h := coef_at_boundary ([1, 2, 3] : List (ZMod 11)) (by decide)
  exact ⟨h.2.1, (h.1 1 2).mpr (by decide)⟩

/-- C3 (code_bug exhibit): with `t = 1`, `shares = Some([3,4,5])` and only one
validated index, the claim (and spec scenario S5) demand
`Err(InsufficientShares(1, 1))`, but `select_qualified_set` guards on
`shares.len() > t` (3 > 1) and returns `Ok` with a single pair — fewer than the
promised `t+1`. The identity shuffle is a legitimate rng outcome. -/
theorem select_qualified_set_guard_bug :
    select_qualified_set (α := ZMod 11) id 1 (some [3, 4, 5]) [0]
      = .ok [(1, 3)] := by
  rfl

/-- C4 (code_bug exhibit): `gen_powers(16, 7)` rows have `t = 7` entries
(`[1, i, …, i⁶]`, loop `for i in 2..t`), not the `t+1 = 8` the spec's power
table needs for degree-`t` evaluation; moreover the row at position `1` — the
row `evaluate_range_precomp` consults for point `1` — holds the powers of `2`,
so even in-bounds consumers evaluate wrongly: `x²` at `x = 1` comes out `0`
instead of `1`. -/
theorem gen_powers_shape_bug :
    ((gen_powers (F := ZMod 11) 16 7).map List.length = List.replicate 16 7)
    ∧ ((gen_powers (F := ZMod 11) 2 2).getD 1 [] = [1, 2])
    ∧ evaluate_range_precomp ([0, 0, 1] : List (ZMod 11))
        (gen_powers (F := ZMod 11) 2 2) 1 1 = [0]
    ∧ evaluate_range ([0, 0, 1] : List (ZMod 11)) 1 1 = [1] := by
  refine ⟨by decide, by decide, by decide, by decide⟩

/-- C7: both challenge-derivation functions return with the caller's 64-byte
squeeze buffer zeroized on their (only) return path, while the challenge
scalar was derived from the pre-zeroize XOF output. -/
theorem compute_d_buffer_zeroized {F Q : Type} [Field F]
    (xof : List ℕ → List ℕ) (from_bytes_mod_order_wide : List ℕ → F)
    (as_bytes : Q → List ℕ)
    (hxof : ∀ s, (xof s).length = 64)
    (hasher : HasherSt) (buf : List ℕ) (cs : List (List ℕ)) (cps : List Q) :
    (compute_d_from_hash_commitments xof from_bytes_mod_order_wide
        hasher buf cs).2.2 = List.replicate 64 0
    ∧ (compute_d_from_hash_commitments xof from_bytes_mod_order_wide
        hasher buf cs).1
      = from_bytes_mod_order_wide (xof (cs.foldl hUpdate hasher).acc)
    ∧ (compute_d_from_point_commitments xof from_bytes_mod_order_wide as_bytes
        hasher buf cps).2.2 = List.replicate 64 0
    ∧ (compute_d_from_point_commitments xof from_bytes_mod_order_wide as_bytes
        hasher buf cps).1
      = from_bytes_mod_order_wide
          (xof (cps.foldl (fun h c => hUpdate h (as_bytes c)) hasher).acc) := by
  refine ⟨?_, rfl, ?_, rfl⟩
  · show zeroize (xof (cs.foldl hUpdate hasher).acc) = List.replicate 64 0
    rw [zeroize, List.map_const', hxof]
  · show zeroize (xof (cps.foldl (fun h c => hUpdate h (as_bytes c)) hasher).acc)
      = List.replicate 64 0
    rw [zeroize, List.map_const', hxof]

theorem compute_d_buffer_zeroized_witness :
    (compute_d_from_hash_commitments (fun _ => List.replicate 64 7)
        (fun _ => (0 : ZMod 11)) ⟨[]⟩ [1, 2] [[5]]).2.2 = List.replicate 64 0
    ∧ (compute_d_from_point_commitments (fun _ => List.replicate 64 7)
        (fun _ => (0 : ZMod 11)) (id (α := List ℕ)) ⟨[]⟩ [1, 2] [[6]]).2.2
      = List.replicate 64 0 := by
  have h := compute_d_buffer_zeroized (fun _ => List.replicate 64 7)
    (fun _ => (0 : ZMod 11)) (id (α := List ℕ))
    (fun s => by simp) ⟨[]⟩ [1, 2] [[5]] [[6]]
  exact ⟨h.1, h.2.2.1⟩

/-- C8: for every coefficient vector, bounds `1 ≤ from ≤ to`, and a power table
whose consulted rows `powers[i]` (for `i ∈ from..=to`) have at least
`degree + 1` entries with `powers[i][j] = i^j`, `evaluate_range_precomp` agrees
with `evaluate_range`. -/
theorem evaluate_range_precomp_eq {F : Type} [Field F] [DecidableEq F]
    (coeffs : List F) (powers : List (List F)) (a b : ℕ)
    (ha : 1 ≤ a) (hab : a ≤ b)
    (hrow : ∀ i, a ≤ i → i ≤ b →
      coeffs.length ≤ (powers.getD i []).length
      ∧ ∀ j, j < coeffs.length → (powers.getD i []).getD j 0 = ((i : ℕ) : F) ^ j) :
    evaluate_range_precomp coeffs powers a b = evaluate_range coeffs a b := by
  unfold evaluate_range_precomp evaluate_range
  refine List.map_congr_left fun i hi => ?_
  have hmem := List.mem_range'_1.mp hi
  have hia : a ≤ i := hmem.1
  have hib : i ≤ b := by omega
  obtain ⟨hlen, hval⟩ := hrow i hia hib
  rw [sum_zipWith _ 0 0, evaluate_eq_sum]
  have hmin : min coeffs.length (powers.getD i []).length = coeffs.length := by omega
  rw [hmin]
  exact Finset.sum_congr rfl fun j hj => by rw [hval j (Finset.mem_range.mp hj)]

theorem evaluate_range_precomp_eq_witness :
    evaluate_range_precomp ([2, 3] : List (ZMod 11)) [[], [1, 1], [1, 2]] 1 2
      = evaluate_range ([2, 3] : List (ZMod 11)) 1 2 :=
  evaluate_range_precomp_eq [2, 3] [[], [1, 1], [1, 2]] 1 2 (by decide) (by decide)
    (by
      intro i h1 h2
      interval_cases i <;>
        exact ⟨by decide, by
          intro j hj
          have hj2 : j < 2 := by simpa using hj
          interval_cases j <;> decide⟩)

theorem batch_decompress_ok {P Q : Type} (decompress : Q → Option P)
    (reprC : Q → String) (pks : List Q)
    (h : ∀ c ∈ pks, (decompress c).isSome) :
    ∃ ps, batch_decompress_ristretto_points decompress reprC pks = .ok ps := by
  induction pks with
  | nil => exact ⟨[], rfl⟩
  | cons c rest ih =>
      obtain ⟨p, hp⟩ := Option.isSome_iff_exists.mp (h c (by simp))
      obtain ⟨ps, hps⟩ := ih (fun x hx => h x (by simp [hx]))
      refine ⟨p :: ps, ?_⟩
      simp [batch_decompress_ristretto_points, decompress_ristretto_point, hp, hps]

theorem batch_decompress_error {P Q : Type} (decompress : Q → Option P)
    (reprC : Q → String) (pks : List Q) (e : ErrorKind)
    (h : batch_decompress_ristretto_points decompress reprC pks = .error e) :
    ∃ s, e = .PointDecompressionError s := by
  induction pks with
  | nil => exact absurd h (by simp [batch_decompress_ristretto_points])
  | cons c rest ih =>
      rw [batch_decompress_ristretto_points, decompress_ristretto_point] at h
      cases hdc : decompress c with
      | none =>
          rw [hdc] at h
          simp only [Except.error.injEq] at h
          exact ⟨reprC c, h.symm⟩
      | some p =>
          rw [hdc] at h
          simp only at h
          cases hb : batch_decompress_ristretto_points decompress reprC rest with
          | ok ps => rw [hb] at h; simp at h
          | error e2 =>
              rw [hb] at h
              simp only [Except.error.injEq] at h
              rw [h] at hb
              exact ih hb

theorem batch_decompress_not_ok {P Q : Type} (decompress : Q → Option P)
    (reprC : Q → String) (pks : List Q) (c : Q) (hc : c ∈ pks)
    (hnone : decompress c = none) :
    ∀ ps, batch_decompress_ristretto_points decompress reprC pks ≠ .ok ps := by
  induction pks with
  | nil => cases hc
  | cons c0 rest ih =>
      intro ps hps
      rw [batch_decompress_ristretto_points, decompress_ristretto_point] at hps
      cases hdc : decompress c0 with
      | none => rw [hdc] at hps; simp at hps
      | some p =>
          rw [hdc] at hps
          simp only at hps
          cases hb : batch_decompress_ristretto_points decompress reprC rest with
          | ok ps2 =>
              rcases List.mem_cons.mp hc with hceq | hcrest
              · rw [hceq] at hnone; rw [hnone] at hdc; cases hdc
              · exact ih hcrest ps2 hb
          | error e2 => rw [hb] at hps; simp at hps

/-- C10 (implicit): `Dealer::new(n, t, public_keys)` enforces no relation
between `t` and `n`: it is `Ok` exactly when `|public_keys| = n` and every key
decompresses — for every `t` — and its only errors are `CountMismatch` (when
`|public_keys| ≠ n`) or a decompression failure. -/
theorem dealer_new_no_t_check {F : Type} [Field F] [DecidableEq F] {P Q : Type}
    (decompress : Q → Option P) (reprC : Q → String)
    (n t t' : ℕ) (pks : List Q) :
    ((pks.length = n ∧ ∀ c ∈ pks, (decompress c).isSome) →
        ∃ d, Dealer.new (F := F) decompress reprC n t pks = .ok d)
    ∧ (pks.length ≠ n →
        Dealer.new (F := F) decompress reprC n t pks
          = .error (.CountMismatch n "parties" pks.length "public keys"))
    ∧ ((∃ d, Dealer.new (F := F) decompress reprC n t pks = .ok d)
        ↔ (∃ d, Dealer.new (F := F) decompress reprC n t' pks = .ok d))
    ∧ (∀ e, Dealer.new (F := F) decompress reprC n t pks = .error e →
        e = .CountMismatch n "parties" pks.length "public keys"
        ∨ ∃ s, e = .PointDecompressionError s) := by
  have hok : ∀ t0 : ℕ, (pks.length = n ∧ ∀ c ∈ pks, (decompress c).isSome) →
      ∃ d, Dealer.new (F := F) decompress reprC n t0 pks = .ok d := by
    intro t0 ⟨hlen, hdec⟩
    obtain ⟨ps, hps⟩ := batch_decompress_ok decompress reprC pks hdec
    exact ⟨_, by rw [Dealer.new, if_neg (by omega), hps]⟩
  have hok_rev : ∀ t0 : ℕ,
      (∃ d, Dealer.new (F := F) decompress reprC n t0 pks = .ok d) →
      pks.length = n ∧ ∀ c ∈ pks, (decompress c).isSome := by
    intro t0 ⟨d, hd⟩
    rw [Dealer.new] at hd
    by_cases hlen : pks.length ≠ n
    · rw [if_pos hlen] at hd; cases hd
    · refine ⟨by omega, fun c hc => ?_⟩
      rw [if_neg hlen] at hd
      by_contra hno
      cases hb : batch_decompress_ristretto_points decompress reprC pks with
      | ok ps =>
          exact batch_decompress_not_ok decompress reprC pks c hc
            (Option.not_isSome_iff_eq_none.mp hno) ps hb
      | error e2 => rw [hb] at hd; cases hd
  refine ⟨hok t, fun hlen => by rw [Dealer.new, if_pos hlen], ?_, ?_⟩
  · exact ⟨fun h => hok t' (hok_rev t h), fun h => hok t (hok_rev t' h)⟩
  · intro e he
    rw [Dealer.new] at he
    by_cases hlen : pks.length ≠ n
    · rw [if_pos hlen] at he
      simp only [Except.error.injEq] at he
      exact Or.inl he.symm
    · rw [if_neg hlen] at he
      cases hb : batch_decompress_ristretto_points decompress reprC pks with
      | ok ps => rw [hb] at he; cases he
      | error e2 =>
          rw [hb] at he
          simp only [Except.error.injEq] at he
          exact Or.inr (he ▸ batch_decompress_error decompress reprC pks e2 hb)

theorem dealer_new_no_t_check_witness :
    ∃ d, Dealer.new (F := ZMod 11) (P := ℕ) (Q := ℕ)
        (fun c => if c = 0 then none else some c) (fun _ => "") 2 99 [1, 2]
      = .ok d :=
  (dealer_new_no_t_check (F := ZMod 11)
    (fun c => if c = 0 then none else some c) (fun _ => "") 2 99 0 [1, 2]).1
    ⟨by decide, by decide⟩

/-- C2 counterexample: `Party::new` performs no `index ≥ 1` check — with
`(n, t, index) = (3, 1, 0)` the claim demands `Err(InvalidParameterSet)`
(`index < 1`), but the code accepts, since `0 ≤ 3`, `1 < 3`, and
`1 = floor(2/2)` all hold. -/
theorem party_new_accepts_index_zero :
    (Party.new (F := ZMod 11) (P := ZMod 11) (Q := ZMod 11) (D := List (ZMod 11))
      (fun a b => a * b) id 1 2 3 1 0).isOk = true := by
  rfl

/-- C2 amended: `Party::new` returns `Ok` iff `index ≤ n ∧ t < n` and the f32
comparison `t as f32 == floor((n-1) as f32 / 2)` holds (so `index = 0` is
accepted, and for huge parameters the comparison is only f32-accurate);
otherwise it returns `Err(InvalidParameterSet(n, t, index))`. For every
`n ≤ 2^24` the f32 comparison is exact, i.e. acceptance is exactly
`index ≤ n ∧ t < n ∧ t = ⌊(n−1)/2⌋`. -/
theorem party_new_guard {F : Type} [Field F] [DecidableEq F] {P Q D : Type}
    (smulP : F → P → P) (compressP : P → Q) (Gp : P) (sk : F)
    (n t index : ℕ) :
    ((∃ pr, Party.new (D := D) smulP compressP Gp sk n t index = .ok pr)
        ↔ (index ≤ n ∧ t < n ∧ f32ofNat t = f32ofNat (n - 1) / 2))
    ∧ (¬(index ≤ n ∧ t < n ∧ f32ofNat t = f32ofNat (n - 1) / 2) →
        Party.new (D := D) smulP compressP Gp sk n t index
          = .error (.InvalidPararmeterSet n (t : ℤ) index))
    ∧ (n ≤ 2 ^ 24 →
        ((∃ pr, Party.new (D := D) smulP compressP Gp sk n t index = .ok pr)
          ↔ (index ≤ n ∧ t < n ∧ t = (n - 1) / 2))) := by
  have h24 : (2 : ℕ) ^ 24 = 16777216 := by norm_num
  have hexact : ∀ m : ℕ, m < 2 ^ 24 → f32ofNat m = m := by
    intro m hm
    rw [f32ofNat, if_pos hm]
  by_cases hc : index ≤ n ∧ t < n ∧ f32ofNat t = f32ofNat (n - 1) / 2
  · refine ⟨⟨fun _ => hc, fun _ => ⟨_, by rw [Party.new, if_pos hc]⟩⟩,
      fun hn => absurd hc hn, fun hn => ?_⟩
    obtain ⟨h1, h2, h3⟩ := hc
    rw [hexact t (by omega), hexact (n - 1) (by omega)] at h3
    exact ⟨fun _ => ⟨h1, h2, h3⟩, fun _ => ⟨_, by
      rw [Party.new, if_pos ⟨h1, h2, by
        rw [hexact t (by omega), hexact (n - 1) (by omega)]; exact h3⟩]⟩⟩
  · refine ⟨⟨fun ⟨pr, hpr⟩ => ?_, fun h => absurd h hc⟩,
      fun _ => by rw [Party.new, if_neg hc], fun hn => ?_⟩
    · rw [Party.new, if_neg hc] at hpr; cases hpr
    · constructor
      · intro ⟨pr, hpr⟩
        rw [Party.new, if_neg hc] at hpr; cases hpr
      · intro ⟨h1, h2, h3⟩
        exfalso
        exact hc ⟨h1, h2, by
          rw [hexact t (by omega), hexact (n - 1) (by omega)]; exact h3⟩

theorem party_new_guard_witness :
    ∃ pr, Party.new (F := ZMod 11) (P := ZMod 11) (Q := ZMod 11)
        (D := List (ZMod 11)) (fun a b => a * b) id 1 2 4 1 2 = .ok pr :=
  ((party_new_guard (F := ZMod 11) (P := ZMod 11) (Q := ZMod 11)
      (D := List (ZMod 11)) (fun a b => a * b) id 1 2 4 1 2).2.2
    (by norm_num)).mpr (by decide)

/-! ## Honest-run lemmas for the B_Pi_LA round trip -/

theorem headD_map_ne_nil {α β : Type} (G : α → β) (S : List α) (da : α) (db : β)
    (h : S ≠ []) : (S.map G).headD db = G (S.headD da) := by
  cases S with
  | nil => exact absurd rfl h
  | cons a l => rfl

theorem headD_mem_ne_nil {α : Type} (S : List α) (da : α) (h : S ≠ []) :
    S.headD da ∈ S := by
  cases S with
  | nil => exact absurd rfl h
  | cons a l => simp

section HonestRun

variable {F : Type} [Field F] [DecidableEq F]

theorem evaluate_range_length (coeffs : List F) (a b : ℕ) :
    (evaluate_range coeffs a b).length = b + 1 - a := by
  simp [evaluate_range]

theorem evaluate_many_range_length (polys : List (List F)) (a b : ℕ) :
    (evaluate_many_range polys a b).length = b + 1 - a := by
  simp [evaluate_many_range]

theorem evaluate_range_getD (coeffs : List F) (n idx : ℕ)
    (h1 : 1 ≤ idx) (h2 : idx ≤ n) :
    (evaluate_range coeffs 1 n).getD (idx - 1) 0 = evaluate coeffs idx := by
  unfold evaluate_range
  have hn : n + 1 - 1 = n := by omega
  rw [hn, getD_map' _ _ (idx - 1) 0 _ (by simp only [List.length_range']; omega),
    getD_range' 1 n (idx - 1) 0 (by omega)]
  congr 1
  omega

theorem evaluate_many_range_getD (polys : List (List F)) (n L idx : ℕ)
    (hne : polys ≠ []) (hlen : ∀ p ∈ polys, p.length = L)
    (h1 : 1 ≤ idx) (h2 : idx ≤ n) :
    (evaluate_many_range polys 1 n).getD (idx - 1) []
      = polys.map (fun p => evaluate p idx) := by
  unfold evaluate_many_range
  have hn : n + 1 - 1 = n := by omega
  rw [hn, getD_map' _ _ (idx - 1) 0 _ (by simp only [List.length_range']; omega),
    getD_range' 1 n (idx - 1) 0 (by omega)]
  have hidx : 1 + (idx - 1) = idx := by omega
  rw [hidx]
  refine List.map_congr_left fun p hp => ?_
  have hhead : (polys.headD []).length = L := by
    rcases polys with _ | ⟨p0, rest⟩
    · exact absurd rfl hne
    · exact hlen p0 (by simp)
  unfold evaluate
  rw [hhead, hlen p hp]

variable {P Q D : Type} [Inhabited D] [DecidableEq D]
variable (hashCommit : List F → D) (hashChallenge : List D → F)
variable (pt0 : P) (cpt0 : Q)

/-- In an honest dealing, the derived `r`-evaluation at any point `idx ∈ [1..n]`
equals the blinding polynomial's true evaluation. -/
theorem honest_r_val (n t k : ℕ) (secrets : List F)
    (fcoefs : List (List F)) (rcoefs : List F)
    (FE RE C dv z : List _ )
    (hk : 1 ≤ k) (hsec : secrets.length = k) (hfk : fcoefs.length = k)
    (hflen : ∀ f ∈ fcoefs, f.length = t + 1) (hrlen : rcoefs.length = t + 1)
    (hFE : FE = evaluate_many_range fcoefs 1 n)
    (hRE : RE = evaluate_range rcoefs 1 n)
    (hC : C = List.zipWith (fun fi ri => hashCommit (fi ++ [ri])) FE RE)
    (hdv : dv = compute_d_powers secrets.length (hashChallenge C))
    (hz : z = compute_z rcoefs fcoefs dv)
    (idx : ℕ) (h1 : 1 ≤ idx) (h2 : idx ≤ n) :
    FE.getD (idx - 1) [] = fcoefs.map (fun f => evaluate f idx)
    ∧ (FE.getD (idx - 1) []).length = k
    ∧ compute_r_eval (evaluate z idx) (FE.getD (idx - 1) []) dv
        = evaluate rcoefs idx
    ∧ C.getD (idx - 1) default
        = hashCommit (FE.getD (idx - 1) [] ++ [evaluate rcoefs idx]) := by
  have hfne : fcoefs ≠ [] := by
    intro h
    rw [h] at hfk
    simp at hfk
    omega
  have hrow : FE.getD (idx - 1) [] = fcoefs.map (fun f => evaluate f idx) := by
    rw [hFE]
    exact evaluate_many_range_getD fcoefs n (t + 1) idx hfne hflen h1 h2
  have hrowlen : (FE.getD (idx - 1) []).length = k := by
    rw [hrow]
    simp [hfk]
  have hdvlen : dv.length = k := by
    rw [hdv]
    simp only [compute_d_powers, List.length_map, List.length_range]
    omega
  have hrval : compute_r_eval (evaluate z idx) (FE.getD (idx - 1) []) dv
      = evaluate rcoefs idx := by
    rw [hrow, hz]
    exact compute_r_eval_recovers rcoefs fcoefs dv idx
      (fun f hf => by rw [hflen f hf, hrlen]) (by omega)
  have hFElen : FE.length = n := by
    rw [hFE, evaluate_many_range_length]
    omega
  have hRElen : RE.length = n := by
    rw [hRE, evaluate_range_length]
    omega
  have hCgd : C.getD (idx - 1) default
      = hashCommit (FE.getD (idx - 1) [] ++ [RE.getD (idx - 1) 0]) := by
    rw [hC]
    exact getD_zipWith _ FE RE (idx - 1) [] 0 default (by omega) (by omega)
  have hREv : RE.getD (idx - 1) 0 = evaluate rcoefs idx := by
    rw [hRE]
    exact evaluate_range_getD rcoefs n idx h1 h2
  exact ⟨hrow, hrowlen, hrval, by rw [hCgd, hREv]⟩

/-- Honest run: every party's `verify_share` on its own share returns `Ok(true)`. -/
theorem verify_share_honest (n t k : ℕ) (secrets : List F)
    (fcoefs : List (List F)) (rcoefs : List F)
    (FE RE C dv z : List _ )
    (hk : 1 ≤ k) (hsec : secrets.length = k) (hfk : fcoefs.length = k)
    (hflen : ∀ f ∈ fcoefs, f.length = t + 1) (hrlen : rcoefs.length = t + 1)
    (hFE : FE = evaluate_many_range fcoefs 1 n)
    (hRE : RE = evaluate_range rcoefs 1 n)
    (hC : C = List.zipWith (fun fi ri => hashCommit (fi ++ [ri])) FE RE)
    (hdv : dv = compute_d_powers secrets.length (hashChallenge C))
    (hz : z = compute_z rcoefs fcoefs dv)
    (idx : ℕ) (h1 : 1 ≤ idx) (h2 : idx ≤ n) :
    Party.verify_share hashCommit hashChallenge
      { private_key := (0 : F), public_key := (cpt0, pt0), index := idx, n := n, t := t
        public_keys := none, dealer_proof := some (C, z), validated_shares := []
        share := some (FE.getD (idx - 1) []), shares := none, qualified_set := none }
      = .ok true := by
  obtain ⟨hrow, hrowlen, hrval, hCgd⟩ := honest_r_val hashCommit hashChallenge
    n t k secrets fcoefs rcoefs FE RE C dv z hk hsec hfk hflen hrlen
    hFE hRE hC hdv hz idx h1 h2
  show Except.ok (decide (C.getD (idx - 1) default
    = hashCommit ((FE.getD (idx - 1) [])
        ++ [compute_r_eval (evaluate z idx) (FE.getD (idx - 1) [])
              (compute_d_powers (FE.getD (idx - 1) []).length (hashChallenge C))])))
    = Except.ok true
  rw [hrowlen, ← hsec, ← hdv, hrval, hCgd]
  rw [decide_eq_true rfl]

/-- Honest run: `verify_shares` validates all `n` shares and returns `Ok(true)`. -/
theorem verify_shares_honest (n t k : ℕ) (secrets : List F)
    (fcoefs : List (List F)) (rcoefs : List F)
    (FE RE C dv z : List _ )
    (hn : 2 ≤ n) (ht : t = (n - 1) / 2)
    (hk : 1 ≤ k) (hsec : secrets.length = k) (hfk : fcoefs.length = k)
    (hflen : ∀ f ∈ fcoefs, f.length = t + 1) (hrlen : rcoefs.length = t + 1)
    (hFE : FE = evaluate_many_range fcoefs 1 n)
    (hRE : RE = evaluate_range rcoefs 1 n)
    (hC : C = List.zipWith (fun fi ri => hashCommit (fi ++ [ri])) FE RE)
    (hdv : dv = compute_d_powers secrets.length (hashChallenge C))
    (hz : z = compute_z rcoefs fcoefs dv)
    (idx : ℕ) (h1 : 1 ≤ idx) (h2 : idx ≤ n) :
    Party.verify_shares hashCommit hashChallenge
      { private_key := (0 : F), public_key := (cpt0, pt0), index := idx, n := n, t := t
        public_keys := none, dealer_proof := some (C, z), validated_shares := []
        share := none, shares := some FE, qualified_set := none }
      = .ok ({ private_key := (0 : F), public_key := (cpt0, pt0), index := idx,
               n := n, t := t, public_keys := none, dealer_proof := some (C, z),
               validated_shares := List.range n, share := none, shares := some FE,
               qualified_set := none }, true) := by
  have hhead : (FE.headD []).length = k := by
    rw [headD_eq_getD]
    exact (honest_r_val hashCommit hashChallenge n t k secrets fcoefs rcoefs
      FE RE C dv z hk hsec hfk hflen hrlen hFE hRE hC hdv hz 1 le_rfl
      (by omega)).2.1
  have hcheck : ∀ i ∈ List.range n,
      (fun i => decide (C.getD i default
        = hashCommit (FE.getD i []
            ++ [compute_r_eval ((evaluate_range z 1 n).getD i 0) (FE.getD i [])
                  (compute_d_powers (FE.headD []).length (hashChallenge C))]))) i
        = true := by
    intro i hi
    have hi' : i < n := List.mem_range.mp hi
    obtain ⟨hrow, hrowlen, hrval, hCgd⟩ := honest_r_val hashCommit hashChallenge
      n t k secrets fcoefs rcoefs FE RE C dv z hk hsec hfk hflen hrlen
      hFE hRE hC hdv hz (i + 1) (by omega) (by omega)
    simp only [Nat.add_sub_cancel] at hrow hrowlen hrval hCgd
    have hzi : (evaluate_range z 1 n).getD i 0 = evaluate z (i + 1) := by
      have := evaluate_range_getD z n (i + 1) (by omega) (by omega)
      simpa using this
    show decide (C.getD i default
      = hashCommit (FE.getD i []
          ++ [compute_r_eval ((evaluate_range z 1 n).getD i 0) (FE.getD i [])
                (compute_d_powers (FE.headD []).length (hashChallenge C))])) = true
    rw [hzi, hhead, ← hsec, ← hdv, hrval, hCgd]
    exact decide_eq_true rfl
  have hV : (List.range n).filter
      (fun i => decide (C.getD i default
        = hashCommit (FE.getD i []
            ++ [compute_r_eval ((evaluate_range z 1 n).getD i 0) (FE.getD i [])
                  (compute_d_powers (FE.headD []).length (hashChallenge C))])))
      = List.range n := List.filter_eq_self.mpr hcheck
  have hred : Party.verify_shares hashCommit hashChallenge
      ({ private_key := (0 : F), public_key := (cpt0, pt0), index := idx, n := n,
         t := t, public_keys := none, dealer_proof := some (C, z),
         validated_shares := [], share := none, shares := some FE,
         qualified_set := none } : Party F P Q D)
      = Except.ok
        (({ private_key := (0 : F), public_key := (cpt0, pt0), index := idx, n := n,
            t := t, public_keys := none, dealer_proof := some (C, z),
            validated_shares := (List.range n).filter
              (fun i => decide (C.getD i default
                = hashCommit (FE.getD i []
                    ++ [compute_r_eval ((evaluate_range z 1 n).getD i 0) (FE.getD i [])
                          (compute_d_powers (FE.headD []).length (hashChallenge C))]))),
            share := none, shares := some FE,
            qualified_set := none } : Party F P Q D),
         decide (((List.range n).filter
             (fun i => decide (C.getD i default
               = hashCommit (FE.getD i []
                   ++ [compute_r_eval ((evaluate_range z 1 n).getD i 0) (FE.getD i [])
                         (compute_d_powers (FE.headD []).length
                           (hashChallenge C))])))).length
           > t)) := rfl
  rw [hred, hV, List.length_range, decide_eq_true (show n > t by omega)]

/-- Honest run: reconstruction over any `t+1`-sized duplicate-free subset of
`[1..n]`, with the matching Lagrange bases, returns exactly the secrets. -/
theorem reconstruct_honest (n t k : ℕ) (secrets : List F)
    (fcoefs : List (List F)) (rcoefs : List F)
    (FE : List (List F))
    (hk : 1 ≤ k) (hsec : secrets.length = k) (hfk : fcoefs.length = k)
    (hflen : ∀ f ∈ fcoefs, f.length = t + 1)
    (hf0 : ∀ j, j < k → (fcoefs.getD j []).getD 0 0 = secrets.getD j 0)
    (hcast : ∀ m : ℕ, 0 < m → m ≤ n → ((m : ℕ) : F) ≠ 0)
    (hFE : FE = evaluate_many_range fcoefs 1 n)
    (S : List ℕ) (hnd : S.Nodup) (hlenS : S.length = t + 1)
    (hrange : ∀ i ∈ S, 1 ≤ i ∧ i ≤ n) :
    Party.reconstruct_secrets (D := D) (P := P) (Q := Q)
      { private_key := (0 : F), public_key := (cpt0, pt0), index := 1, n := n, t := t
        public_keys := none, dealer_proof := none, validated_shares := List.range n
        share := none, shares := none
        qualified_set := some (S.map (fun i => (i, FE.getD (i - 1) []))) }
      (compute_lagrange_bases S)
      = .ok secrets := by
  have hfne : fcoefs ≠ [] := by
    intro h
    rw [h] at hfk
    simp at hfk
    omega
  have hrowf : ∀ i, 1 ≤ i → i ≤ n →
      FE.getD (i - 1) [] = fcoefs.map (fun f => evaluate f i) := by
    intro i hi1 hi2
    rw [hFE]
    exact evaluate_many_range_getD fcoefs n (t + 1) i hfne hflen hi1 hi2
  have hrowlen : ∀ i, 1 ≤ i → i ≤ n → (FE.getD (i - 1) []).length = k := by
    intro i hi1 hi2
    rw [hrowf i hi1 hi2]
    simp [hfk]
  have hscaled : List.zipWith (fun (pr : ℕ × List F) l => pr.2.map (fun s => l * s))
      (S.map (fun i => (i, FE.getD (i - 1) []))) (compute_lagrange_bases S)
      = S.map (fun i =>
          (FE.getD (i - 1) []).map (fun s => compute_lagrange_basis i S * s)) := by
    unfold compute_lagrange_bases
    rw [List.zipWith_map_left, List.zipWith_map_right, List.zipWith_same]
  have hS0 : S ≠ [] := by
    intro h
    rw [h] at hlenS
    simp at hlenS
  have hs0mem : S.headD 0 ∈ S := headD_mem_ne_nil S 0 hS0
  have hs0b := hrange _ hs0mem
  have hheadlen : ((S.map (fun i =>
      (FE.getD (i - 1) []).map (fun s => compute_lagrange_basis i S * s))).headD
        []).length = k := by
    rw [headD_map_ne_nil _ S 0 [] hS0]
    simp only [List.length_map]
    exact hrowlen _ hs0b.1 hs0b.2
  show Except.ok
      ((List.range ((List.zipWith (fun (pr : ℕ × List F) l => pr.2.map (fun s => l * s))
          (S.map (fun i => (i, FE.getD (i - 1) []))) (compute_lagrange_bases S)).headD
            []).length).map
        (fun kk => ((List.zipWith (fun (pr : ℕ × List F) l => pr.2.map (fun s => l * s))
          (S.map (fun i => (i, FE.getD (i - 1) []))) (compute_lagrange_bases S)).map
            (fun sh => sh.getD kk 0)).sum))
      = Except.ok secrets
  rw [hscaled, hheadlen]
  refine congrArg Except.ok ?_
  refine list_eq_by_getD 0 _ _ (by simp [hsec]) fun kk hkk => ?_
  have hkk' : kk < k := by simpa using hkk
  rw [getD_map' _ _ kk 0 0 (by simpa using hkk), getD_range _ _ _ (by simpa using hkk)]
  rw [List.map_map]
  have hcomp : S.map ((fun sh => sh.getD kk 0)
        ∘ (fun i => (FE.getD (i - 1) []).map (fun s => compute_lagrange_basis i S * s)))
      = S.map (fun i =>
          compute_lagrange_basis i S * evaluate (fcoefs.getD kk []) i) := by
    refine List.map_congr_left fun i hiS => ?_
    have hib := hrange i hiS
    show ((FE.getD (i - 1) []).map
      (fun s => compute_lagrange_basis i S * s)).getD kk 0 = _
    rw [getD_map' _ _ kk 0 0 (by rw [hrowlen i hib.1 hib.2]; omega)]
    rw [hrowf i hib.1 hib.2, getD_map' _ _ kk [] 0 (by rw [hfk]; omega)]
  rw [hcomp, ← zip_bases_evals S (fun i => evaluate (fcoefs.getD kk []) i)]
  have hmem : fcoefs.getD kk [] ∈ fcoefs := by
    rw [List.getD_eq_getElem _ _ (by rw [hfk]; omega)]
    exact List.getElem_mem _
  have hsum := lagrange_sum_eval_zero n S (fcoefs.getD kk []) hnd hrange hcast
    (by rw [hflen _ hmem, hlenS])
  rw [hsum, evaluate_at_zero]
  exact hf0 kk hkk'

end HonestRun

/-- C1: B_Pi_LA round trip. For every `n ≥ 2` with `t = ⌊(n−1)/2⌋`, `k ≥ 1`,
secrets in `F^k`, and every rng outcome (the sampled coefficient vectors
`fcoefs` — constant terms equal to the secrets — and `rcoefs`), after an honest
`Dealer::deal_secrets_v2` run producing `(shares, (C, z))`: every party that
ingested its own share and the proof gets `verify_share = Ok(true)`; every
party that ingested all `n` shares gets `verify_shares = Ok(true)` with all of
`0..n-1` validated; and `reconstruct_secrets` over any `t+1`-sized
duplicate-free subset of the validated indices, with the matching
`compute_lagrange_bases`, returns exactly the original secrets. The cast
hypothesis `hcast` is the `ℤ_q` side condition `n < q`. -/
theorem b_pi_la_round_trip {F : Type} [Field F] [DecidableEq F]
    {P Q D : Type} [Inhabited D] [DecidableEq D]
    (hashCommit : List F → D) (hashChallenge : List D → F)
    (pt0 : P) (cpt0 : Q)
    (n t k : ℕ) (secrets : List F) (fcoefs : List (List F)) (rcoefs : List F)
    (hn : 2 ≤ n) (ht : t = (n - 1) / 2) (hk : 1 ≤ k)
    (hsec : secrets.length = k) (hfk : fcoefs.length = k)
    (hflen : ∀ f ∈ fcoefs, f.length = t + 1)
    (hf0 : ∀ j, j < k → (fcoefs.getD j []).getD 0 0 = secrets.getD j 0)
    (hrlen : rcoefs.length = t + 1)
    (hcast : ∀ m : ℕ, 0 < m → m ≤ n → ((m : ℕ) : F) ≠ 0) :
    (∀ idx, 1 ≤ idx → idx ≤ n →
        Party.verify_share hashCommit hashChallenge
          { private_key := (0 : F), public_key := (cpt0, pt0), index := idx,
            n := n, t := t, public_keys := none
            dealer_proof := some
              (deal_secrets_v2 hashCommit hashChallenge n secrets fcoefs rcoefs).2
            validated_shares := []
            share := some ((deal_secrets_v2 hashCommit hashChallenge
              n secrets fcoefs rcoefs).1.getD (idx - 1) [])
            shares := none, qualified_set := none }
          = .ok true)
    ∧ (∀ idx, 1 ≤ idx → idx ≤ n → ∃ p',
        Party.verify_shares hashCommit hashChallenge
          { private_key := (0 : F), public_key := (cpt0, pt0), index := idx,
            n := n, t := t, public_keys := none
            dealer_proof := some
              (deal_secrets_v2 hashCommit hashChallenge n secrets fcoefs rcoefs).2
            validated_shares := []
            share := none
            shares := some
              (deal_secrets_v2 hashCommit hashChallenge n secrets fcoefs rcoefs).1
            qualified_set := none }
          = .ok (p', true) ∧ p'.validated_shares = List.range n)
    ∧ (∀ S : List ℕ, S.Nodup → S.length = t + 1 →
        (∀ i ∈ S, 1 ≤ i ∧ i ≤ n) →
        Party.reconstruct_secrets (D := D)
          { private_key := (0 : F), public_key := (cpt0, pt0), index := 1,
            n := n, t := t, public_keys := none, dealer_proof := none
            validated_shares := List.range n, share := none, shares := none
            qualified_set := some (S.map (fun i =>
              (i, (deal_secrets_v2 hashCommit hashChallenge
                n secrets fcoefs rcoefs).1.getD (i - 1) []))) }
          (compute_lagrange_bases S)
          = .ok secrets) := by
  refine ⟨fun idx h1 h2 => ?_, fun idx h1 h2 => ?_, fun S hnd hlenS hrange => ?_⟩
  · exact verify_share_honest hashCommit hashChallenge pt0 cpt0 n t k
      secrets fcoefs rcoefs
      (deal_secrets_v2 hashCommit hashChallenge n secrets fcoefs rcoefs).1
      (evaluate_range rcoefs 1 n)
      (deal_secrets_v2 hashCommit hashChallenge n secrets fcoefs rcoefs).2.1
      (compute_d_powers secrets.length (hashChallenge
        (deal_secrets_v2 hashCommit hashChallenge n secrets fcoefs rcoefs).2.1))
      (deal_secrets_v2 hashCommit hashChallenge n secrets fcoefs rcoefs).2.2
      hk hsec hfk hflen hrlen rfl rfl rfl rfl rfl idx h1 h2
  · exact ⟨_, verify_shares_honest hashCommit hashChallenge pt0 cpt0 n t k
      secrets fcoefs rcoefs
      (deal_secrets_v2 hashCommit hashChallenge n secrets fcoefs rcoefs).1
      (evaluate_range rcoefs 1 n)
      (deal_secrets_v2 hashCommit hashChallenge n secrets fcoefs rcoefs).2.1
      (compute_d_powers secrets.length (hashChallenge
        (deal_secrets_v2 hashCommit hashChallenge n secrets fcoefs rcoefs).2.1))
      (deal_secrets_v2 hashCommit hashChallenge n secrets fcoefs rcoefs).2.2
      hn ht hk hsec hfk hflen hrlen rfl rfl rfl rfl rfl idx h1 h2, rfl⟩
  · exact reconstruct_honest pt0 cpt0 n t k
      secrets fcoefs rcoefs
      (deal_secrets_v2 hashCommit hashChallenge n secrets fcoefs rcoefs).1
      hk hsec hfk hflen hf0 hcast rfl S hnd hlenS hrange

theorem b_pi_la_round_trip_witness :
    Party.verify_share (F := ZMod 11) (P := Unit) (Q := Unit)
      (id : List (ZMod 11) → List (ZMod 11)) (fun _ => 2)
      { private_key := 0, public_key := ((), ()), index := 1, n := 3, t := 1
        public_keys := none
        dealer_proof := some (deal_secrets_v2 (id : List (ZMod 11) → List (ZMod 11))
          (fun _ => 2) 3 [5] [[5, 3]] [7, 1]).2
        validated_shares := []
        share := some ((deal_secrets_v2 (id : List (ZMod 11) → List (ZMod 11))
          (fun _ => 2) 3 [5] [[5, 3]] [7, 1]).1.getD (1 - 1) [])
        shares := none, qualified_set := none } = .ok true
    ∧ Party.reconstruct_secrets (F := ZMod 11) (P := Unit) (Q := Unit)
      (D := List (ZMod 11))
      { private_key := 0, public_key := ((), ()), index := 1, n := 3, t := 1
        public_keys := none, dealer_proof := none
        validated_shares := List.range 3, share := none, shares := none
        qualified_set := some (([1, 2] : List ℕ).map (fun i =>
          (i, (deal_secrets_v2 (id : List (ZMod 11) → List (ZMod 11))
            (fun _ => 2) 3 [5] [[5, 3]] [7, 1]).1.getD (i - 1) []))) }
      (compute_lagrange_bases [1, 2])
      = .ok [5] := by
  have h := b_pi_la_round_trip (F := ZMod 11) (P := Unit) (Q := Unit)
    (D := List (ZMod 11)) id (fun _ => 2) () () 3 1 1 [5] [[5, 3]] [7, 1]
    (by decide) (by decide) (by decide) (by decide) (by decide)
    (by decide)
    (by intro j hj; interval_cases j <;> decide)
    (by decide)
    (by intro m h1 h2; interval_cases m <;> decide)
  exact ⟨h.1 1 (by decide) (by decide),
    h.2.2 [1, 2] (by decide) (by decide) (by decide)⟩

end PiVss
